import Mathlib

/-!
Verification of the LEB128 codec in `src/lib.rs` (crate `leb128`).

Shallow embedding: a `u8` byte is a natural number below 256, a byte slice is
a `List Nat`, an unsigned machine integer of width `W` is a natural below
`2 ^ W`, and a signed one is an integer in `[-2^(W-1), 2^(W-1))` manipulated
through its `W`-bit two's-complement pattern.  The `decode_signed!` /
`decode_unsigned!` / `impl_encode_signed!` / `impl_encode_unsigned!` macros of
the source instantiate one loop per width; here each loop is embedded once
with the width `W` as a parameter (the encode loops are width-independent,
see the comments below).  A Rust `panic!` / failed `assert!` is `none`.
-/

namespace Leb128

/-- Leading-zero count of a byte: `std::intrinsics::ctlz` on a `u8`. -/
def clz8 (b : Nat) : Nat :=
  if 128 ≤ b then 0 else if 64 ≤ b then 1 else if 32 ≤ b then 2
  else if 16 ≤ b then 3 else if 8 ≤ b then 4 else if 4 ≤ b then 5
  else if 2 ≤ b then 6 else if 1 ≤ b then 7 else 8

/-- The accumulation loop shared by `decode_signed!` (src/lib.rs:98-104) and
`decode_unsigned!` (src/lib.rs:197-203): for each byte,
`result |= (byte & 0x7f) as $t << shift` (a `W`-bit register, so the shifted
group is truncated to `W` bits), `shift += 7`, breaking after the first byte
whose continuation bit is clear (`byte & 0x80 == 0`, i.e. `b < 128` for a
byte).  Returns the final `(result, shift)`. -/
def decodeCore (W : Nat) : List Nat → Nat → Nat → Nat × Nat
  | [], result, shift => (result, shift)
  | b :: rest, result, shift =>
    let result := result ||| b % 128 * 2 ^ shift % 2 ^ W
    let shift := shift + 7
    if b < 128 then (result, shift) else decodeCore W rest result shift

/-- The body of `decode_unsigned!` (src/lib.rs:192-213), i.e. `expect_uW` for
width `W`: run the loop, then the overflow check
`assert!(shift + 1 - ctlz(last) <= W)` on the last byte of the slice; `none`
models the panic (including the out-of-bounds index `self.0[len - 1]` on an
empty slice). -/
def decode_unsigned (W : Nat) (l : List Nat) : Option Nat :=
  match l.getLast? with
  | none => none
  | some last =>
    let rs := decodeCore W l 0 0
    if rs.2 + 1 - clz8 last ≤ W then some rs.1 else none

/-- Reading of a `W`-bit pattern as a two's-complement signed integer; this is
the value a Rust `iW` register holds. -/
def toSigned (W : Nat) (r : Nat) : Int :=
  if r < 2 ^ (W - 1) then (r : Int) else (r : Int) - 2 ^ W

/-- The body of `decode_signed!` (src/lib.rs:92-126), i.e. `expect_iW` for
width `W`: loop, then the signed overflow check — for a last byte with bit 6
clear (`last % 128 < 64` for a byte) `size = shift + 1 - ctlz(last)`, with
bit 6 set `size = shift + 2 - ctlz(!(last | 0x80))` where
`!(last | 0x80) = 127 - last % 128` on a byte — then sign extension
`result |= ((1 << shift) as $t).wrapping_neg()` when `shift < W` and bit 6
of the last byte is set.  In that line (src/lib.rs:121) the unsuffixed
literal `1` has type `i32`, so `1 << shift` overflows its shift amount
whenever `shift ≥ 32`: a panic under debug assertions, modelled as `none`
(a release build would mask the shift and corrupt the result instead).
For `shift < 32` — the loop's shift is a multiple of 7, hence at most 28
here — the mask is exactly the `W`-bit pattern `2^W - 2^shift`. -/
def decode_signed (W : Nat) (l : List Nat) : Option Int :=
  match l.getLast? with
  | none => none
  | some last =>
    let rs := decodeCore W l 0 0
    let size := if last % 128 < 64 then rs.2 + 1 - clz8 last
                else rs.2 + 2 - clz8 (127 - last % 128)
    if size ≤ W then
      if rs.2 < W ∧ 64 ≤ last % 128 then
        if 32 ≤ rs.2 then none
        else some (toSigned W (rs.1 ||| (2 ^ W - 2 ^ rs.2)))
      else some (toSigned W rs.1)
    else none

/-- The body of `impl_encode_unsigned!` (src/lib.rs:272-292), i.e.
`ToULeb128Owned::encode`: emit the low seven bits (`self as u8 & 0x7f`,
which is `v % 128`), logically shift right by 7 (`v / 128`), set the
continuation bit while the remaining value is nonzero, stop when it is zero.
The loop is width-independent: at every unsigned width its `$t`-typed
operations compute exactly these functions of the numeric value. -/
def encode_unsigned (v : Nat) : List Nat :=
  if h : v / 128 = 0 then [v % 128]
  else (v % 128 + 128) :: encode_unsigned (v / 128)
termination_by v
decreasing_by omega

/-- The body of `impl_encode_signed!` (src/lib.rs:245-270), i.e.
`ToILeb128Owned::encode`: emit the low seven bits of the two's-complement
pattern (`self as u8 & 0x7f`, which is the Euclidean `v % 128`), arithmetic
shift right by 7 (floor division by 128, which for the positive divisor 128
is the Euclidean `v / 128`), and stop when the remainder is pure sign
extension of the emitted byte: remainder `0` with bit 6 clear, or `-1` with
bit 6 set; otherwise set the continuation bit.  The loop is
width-independent: at every signed width its `$t`-typed operations compute
exactly these functions of the numeric value. -/
def encode_signed (v : Int) : List Nat :=
  if h : (v / 128 = 0 ∧ v % 128 < 64) ∨ (v / 128 = -1 ∧ 64 ≤ v % 128) then
    [(v % 128).toNat]
  else ((v % 128).toNat + 128) :: encode_signed (v / 128)
termination_by v.natAbs
decreasing_by omega

/-- `from_bytes` of `leb_ref_impl!` (src/lib.rs:132-141): scan forward,
counting bytes, until one with a clear continuation bit is found, and return
the prefix up to and including it; `none` models the panic when the
continuation bit is set on every byte (including the empty input). -/
def from_bytes : List Nat → Option (List Nat)
  | [] => none
  | b :: rest =>
    if b < 128 then some [b] else (from_bytes rest).map (fun v => b :: v)

/-- One step of the `all_from_bytes` scan: on a byte with a clear
continuation bit, close the pending group; otherwise extend it. -/
def allStep (st : List (List Nat) × List Nat) (b : Nat) :
    List (List Nat) × List Nat :=
  if b < 128 then (st.1 ++ [st.2 ++ [b]], []) else (st.1, st.2 ++ [b])

/-- `all_from_bytes` of `leb_ref_impl!` (src/lib.rs:145-159): split the input
after each byte with a clear continuation bit, one group per encoded value;
the final `assert!(start == end)` (no trailing partial value) is the demand
that the pending group be empty, and `none` models its panic. -/
def all_from_bytes (l : List Nat) : Option (List (List Nat)) :=
  let st := l.foldl allStep ([], [])
  if st.2 = [] then some st.1 else none

/-- `byte_count` (src/lib.rs:161-163): the wire length of one encoded
value. -/
def byte_count (l : List Nat) : Nat := l.length

/-- The encoded-value invariant (spec section 3): the slice is nonempty,
every byte except the last has its continuation bit set (and is a byte),
and the last byte has its continuation bit clear. -/
def isEncoding : List Nat → Bool
  | [] => false
  | [b] => decide (b < 128)
  | b :: rest => decide (128 ≤ b) && decide (b < 256) && isEncoding rest

/-- The number encoded by a byte sequence read as unsigned LEB128: the 7-bit
groups, least significant first. -/
def lebValue : List Nat → Nat
  | [] => 0
  | b :: rest => b % 128 + 128 * lebValue rest

/-- Minimal two's-complement width of an integer: bits of the magnitude (of
`-v - 1` when negative) plus a sign bit. -/
def minSignedWidth (v : Int) : Nat :=
  if 0 ≤ v then v.toNat.size + 1 else (-v - 1).toNat.size + 1

/-! Helper lemmas on bits and sizes. -/

theorem lor_two_pow_mul_add {x : Nat} (y k : Nat) (hx : x < 2 ^ k) :
    x ||| 2 ^ k * y = 2 ^ k * y + x := by
  apply Nat.eq_of_testBit_eq
  intro j
  rw [Nat.testBit_lor, Nat.testBit_mul_pow_two_add y hx j, Nat.testBit_mul_pow_two]
  rcases lt_or_ge j k with hj | hj
  · simp [hj, Nat.not_le.mpr hj]
  · have hxj : x.testBit j = false :=
      Nat.testBit_lt_two_pow (lt_of_lt_of_le hx (Nat.pow_le_pow_right (by norm_num) hj))
    simp [hxj, hj, Nat.not_lt.mpr hj]

theorem size_of_range {b k : Nat} (h1 : 2 ^ k ≤ b) (h2 : b < 2 ^ (k + 1)) :
    b.size = k + 1 := by
  have ha := Nat.size_le.mpr h2
  have hb := Nat.lt_size.mpr h1
  omega

theorem clz8_eq {b : Nat} (hb : b < 256) : clz8 b = 8 - b.size := by
  unfold clz8
  split_ifs with h1 h2 h3 h4 h5 h6 h7 h8
  · have : b.size = 8 := size_of_range (k := 7) (by norm_num; omega) (by norm_num; omega)
    omega
  · have : b.size = 7 := size_of_range (k := 6) (by norm_num; omega) (by norm_num; omega)
    omega
  · have : b.size = 6 := size_of_range (k := 5) (by norm_num; omega) (by norm_num; omega)
    omega
  · have : b.size = 5 := size_of_range (k := 4) (by norm_num; omega) (by norm_num; omega)
    omega
  · have : b.size = 4 := size_of_range (k := 3) (by norm_num; omega) (by norm_num; omega)
    omega
  · have : b.size = 3 := size_of_range (k := 2) (by norm_num; omega) (by norm_num; omega)
    omega
  · have : b.size = 2 := size_of_range (k := 1) (by norm_num; omega) (by norm_num; omega)
    omega
  · have : b.size = 1 := size_of_range (k := 0) (by norm_num; omega) (by norm_num; omega)
    omega
  · have : b = 0 := by omega
    simp [this, Nat.size_zero]

theorem size_div128 {v : Nat} (h : 128 ≤ v) : v.size = (v / 128).size + 7 := by
  have hu : 1 ≤ v / 128 := by omega
  have h1 : v / 128 < 2 ^ (v / 128).size := Nat.lt_size_self (v / 128)
  have hs1 : 1 ≤ (v / 128).size := by
    have := Nat.lt_size.mpr (show 2 ^ 0 ≤ v / 128 by simpa using hu)
    omega
  have h2 : 2 ^ ((v / 128).size - 1) ≤ v / 128 := Nat.lt_size.mp (by omega)
  have e1 : (2 : Nat) ^ ((v / 128).size + 7) = 2 ^ (v / 128).size * 128 := by
    rw [pow_add]; norm_num
  have e2 : (2 : Nat) ^ ((v / 128).size + 6) = 2 ^ ((v / 128).size - 1) * 128 := by
    have : (v / 128).size + 6 = ((v / 128).size - 1) + 7 := by omega
    rw [this, pow_add]; norm_num
  have hub : v < 2 ^ ((v / 128).size + 7) := by
    rw [e1]
    have : v < (v / 128 + 1) * 128 := by omega
    calc v < (v / 128 + 1) * 128 := this
    _ ≤ 2 ^ (v / 128).size * 128 := Nat.mul_le_mul_right _ (by omega)
  have hlb : 2 ^ ((v / 128).size + 6) ≤ v := by
    rw [e2]
    calc 2 ^ ((v / 128).size - 1) * 128 ≤ v / 128 * 128 := Nat.mul_le_mul_right _ h2
    _ ≤ v := by omega
  have := Nat.size_le.mpr hub
  have := Nat.lt_size.mpr hlb
  omega

/-! Facts about the encoded-value invariant and the encoded number. -/

theorem isEncoding_singleton {b : Nat} : isEncoding [b] = true ↔ b < 128 := by
  simp [isEncoding]

theorem isEncoding_cons_cons {b c : Nat} {t : List Nat} :
    isEncoding (b :: c :: t) = true ↔
      128 ≤ b ∧ b < 256 ∧ isEncoding (c :: t) = true := by
  simp [isEncoding, Bool.and_eq_true, decide_eq_true_eq, and_assoc]

theorem isEncoding_ne_nil {l : List Nat} (h : isEncoding l = true) : l ≠ [] := by
  intro he
  subst he
  simp [isEncoding] at h

theorem isEncoding_cons_of {b : Nat} {t : List Nat} (hb : 128 ≤ b)
    (hb2 : b < 256) (ht : isEncoding t = true) : isEncoding (b :: t) = true := by
  cases t with
  | nil => exact absurd rfl (isEncoding_ne_nil ht)
  | cons c t' => exact isEncoding_cons_cons.mpr ⟨hb, hb2, ht⟩

theorem isEncoding_getLast : ∀ {l : List Nat}, isEncoding l = true →
    ∃ last, l.getLast? = some last ∧ last < 128 := by
  intro l
  induction l with
  | nil => intro h; simp [isEncoding] at h
  | cons b rest ih =>
    intro h
    cases rest with
    | nil => exact ⟨b, by simp, isEncoding_singleton.mp h⟩
    | cons c t =>
      obtain ⟨-, -, h3⟩ := isEncoding_cons_cons.mp h
      obtain ⟨last, h4, h5⟩ := ih h3
      exact ⟨last, by rw [List.getLast?_cons_cons]; exact h4, h5⟩

theorem lebValue_lt : ∀ {l : List Nat} {last : Nat}, isEncoding l = true →
    l.getLast? = some last →
    lebValue l < 2 ^ (7 * (l.length - 1)) * 2 ^ last.size := by
  intro l
  induction l with
  | nil => intro last h; simp [isEncoding] at h
  | cons b rest ih =>
    intro last h hlast
    cases rest with
    | nil =>
      have hb : b < 128 := isEncoding_singleton.mp h
      have hlb : last = b := by simpa using hlast.symm
      subst hlb
      simpa [lebValue, Nat.mod_eq_of_lt hb] using Nat.lt_size_self last
    | cons c t =>
      obtain ⟨-, -, h3⟩ := isEncoding_cons_cons.mp h
      rw [List.getLast?_cons_cons] at hlast
      have hrec := ih h3 hlast
      have hlen : (c :: t).length - 1 + 1 = (c :: t).length := by simp
      have hpow : (2 : Nat) ^ (7 * ((b :: c :: t).length - 1)) =
          2 ^ (7 * ((c :: t).length - 1)) * 128 := by
        have h7 : 7 * ((b :: c :: t).length - 1) = 7 * ((c :: t).length - 1) + 7 := by
          simp [List.length_cons]
          omega
        rw [h7, pow_add]
        norm_num
      have hstep : lebValue (b :: c :: t) < 128 * (lebValue (c :: t) + 1) := by
        have : b % 128 < 128 := by omega
        simp only [lebValue]
        omega
      calc lebValue (b :: c :: t) < 128 * (lebValue (c :: t) + 1) := hstep
      _ ≤ 128 * (2 ^ (7 * ((c :: t).length - 1)) * 2 ^ last.size) :=
          Nat.mul_le_mul_left _ (by omega)
      _ = 2 ^ (7 * ((b :: c :: t).length - 1)) * 2 ^ last.size := by
          rw [hpow]; ring

theorem lebValue_ge : ∀ {l : List Nat} {last : Nat}, isEncoding l = true →
    l.getLast? = some last → last ≠ 0 →
    2 ^ (7 * (l.length - 1)) * 2 ^ (last.size - 1) ≤ lebValue l := by
  intro l
  induction l with
  | nil => intro last h; simp [isEncoding] at h
  | cons b rest ih =>
    intro last h hlast hne
    cases rest with
    | nil =>
      have hb : b < 128 := isEncoding_singleton.mp h
      have hlb : last = b := by simpa using hlast.symm
      subst hlb
      have h1 : 2 ^ (last.size - 1) ≤ last := by
        have hs : 1 ≤ last.size := by
          have := Nat.lt_size.mpr (show 2 ^ 0 ≤ last by simpa using Nat.pos_of_ne_zero hne)
          omega
        exact Nat.lt_size.mp (by omega)
      simpa [lebValue, Nat.mod_eq_of_lt hb] using h1
    | cons c t =>
      obtain ⟨-, -, h3⟩ := isEncoding_cons_cons.mp h
      rw [List.getLast?_cons_cons] at hlast
      have hrec := ih h3 hlast hne
      have hpow : (2 : Nat) ^ (7 * ((b :: c :: t).length - 1)) =
          2 ^ (7 * ((c :: t).length - 1)) * 128 := by
        have h7 : 7 * ((b :: c :: t).length - 1) = 7 * ((c :: t).length - 1) + 7 := by
          simp [List.length_cons]
          omega
        rw [h7, pow_add]
        norm_num
      calc 2 ^ (7 * ((b :: c :: t).length - 1)) * 2 ^ (last.size - 1)
          = 2 ^ (7 * ((c :: t).length - 1)) * 2 ^ (last.size - 1) * 128 := by
            rw [hpow]; ring
      _ ≤ lebValue (c :: t) * 128 := Nat.mul_le_mul_right _ hrec
      _ ≤ lebValue (b :: c :: t) := by simp only [lebValue]; omega

/-! Correctness of the shared decode loop. -/

theorem decodeStep {W r s d : Nat} (hd : d < 128) (hr1 : r < 2 ^ s)
    (hr2 : r < 2 ^ W) :
    r ||| d * 2 ^ s % 2 ^ W = (r + 2 ^ s * d) % 2 ^ W
    ∧ (r + 2 ^ s * d) % 2 ^ W < 2 ^ (s + 7)
    ∧ (r + 2 ^ s * d) % 2 ^ W < 2 ^ W := by
  rcases le_or_lt W s with hws | hws
  · have hdvd : (2 : Nat) ^ W ∣ 2 ^ s := pow_dvd_pow 2 hws
    obtain ⟨t, ht⟩ := hdvd
    have h0 : d * 2 ^ s % 2 ^ W = 0 :=
      Nat.dvd_iff_mod_eq_zero.mp ⟨d * t, by rw [ht]; ring⟩
    have hval : (r + 2 ^ s * d) % 2 ^ W = r := by
      rw [ht, show r + 2 ^ W * t * d = r + 2 ^ W * (t * d) by ring,
        Nat.add_mul_mod_self_left]
      exact Nat.mod_eq_of_lt hr2
    refine ⟨?_, ?_, ?_⟩
    · rw [h0, Nat.or_zero, hval]
    · rw [hval]
      exact lt_of_lt_of_le hr1 (Nat.pow_le_pow_right (by norm_num) (by omega))
    · rw [hval]; exact hr2
  · have e : (2 : Nat) ^ W = 2 ^ (W - s) * 2 ^ s := by
      rw [← pow_add]
      congr 1
      omega
    have hmod : d * 2 ^ s % 2 ^ W = d % 2 ^ (W - s) * 2 ^ s := by
      rw [e, Nat.mul_mod_mul_right]
    have hd'd : d % 2 ^ (W - s) ≤ d := Nat.mod_le _ _
    have hd'lt : d % 2 ^ (W - s) < 2 ^ (W - s) := Nat.mod_lt _ (by positivity)
    have hsum_lt : 2 ^ s * (d % 2 ^ (W - s)) + r < 2 ^ W := by
      rw [e]
      calc 2 ^ s * (d % 2 ^ (W - s)) + r < 2 ^ s * (d % 2 ^ (W - s) + 1) := by
            have := hr1; ring_nf; omega
      _ ≤ 2 ^ s * 2 ^ (W - s) := Nat.mul_le_mul_left _ (by omega)
      _ = 2 ^ (W - s) * 2 ^ s := by ring
    have hlor : r ||| d % 2 ^ (W - s) * 2 ^ s = 2 ^ s * (d % 2 ^ (W - s)) + r := by
      rw [mul_comm (d % 2 ^ (W - s)) (2 ^ s)]
      exact lor_two_pow_mul_add _ s hr1
    have hmodsum : (r + 2 ^ s * d) % 2 ^ W = 2 ^ s * (d % 2 ^ (W - s)) + r := by
      rw [Nat.add_mod, mul_comm (2 ^ s) d, hmod, Nat.mod_eq_of_lt hr2]
      rw [show r + d % 2 ^ (W - s) * 2 ^ s = 2 ^ s * (d % 2 ^ (W - s)) + r by ring]
      exact Nat.mod_eq_of_lt hsum_lt
    refine ⟨?_, ?_, ?_⟩
    · rw [hmod, hlor, hmodsum]
    · rw [hmodsum]
      have e7 : (2 : Nat) ^ (s + 7) = 2 ^ s * 128 := by rw [pow_add]; norm_num
      rw [e7]
      calc 2 ^ s * (d % 2 ^ (W - s)) + r < 2 ^ s * (d % 2 ^ (W - s) + 1) := by
            have := hr1; ring_nf; omega
      _ ≤ 2 ^ s * 128 := Nat.mul_le_mul_left _ (by omega)
    · rw [hmodsum]; exact hsum_lt

theorem decodeCore_spec (W : Nat) : ∀ (l : List Nat) (r s : Nat),
    isEncoding l = true → r < 2 ^ s → r < 2 ^ W →
    decodeCore W l r s = ((r + 2 ^ s * lebValue l) % 2 ^ W, s + 7 * l.length) := by
  intro l
  induction l with
  | nil => intro r s h; simp [isEncoding] at h
  | cons b rest ih =>
    intro r s henc hr1 hr2
    cases rest with
    | nil =>
      have hb : b < 128 := isEncoding_singleton.mp henc
      obtain ⟨h1, -, -⟩ := decodeStep (d := b % 128) (by omega) hr1 hr2
      rw [show decodeCore W [b] r s =
          if b < 128 then (r ||| b % 128 * 2 ^ s % 2 ^ W, s + 7)
          else decodeCore W [] (r ||| b % 128 * 2 ^ s % 2 ^ W) (s + 7) from rfl,
        if_pos hb, h1]
      simp [lebValue]
    | cons c t =>
      obtain ⟨hb1, hb2, h3⟩ := isEncoding_cons_cons.mp henc
      obtain ⟨h1, h2, h3'⟩ := decodeStep (d := b % 128) (by omega) hr1 hr2
      rw [show decodeCore W (b :: c :: t) r s =
          if b < 128 then (r ||| b % 128 * 2 ^ s % 2 ^ W, s + 7)
          else decodeCore W (c :: t) (r ||| b % 128 * 2 ^ s % 2 ^ W) (s + 7) from rfl,
        if_neg (by omega : ¬b < 128), h1]
      rw [ih _ _ h3 h2 h3']
      refine Prod.ext ?_ ?_
      · show ((r + 2 ^ s * (b % 128)) % 2 ^ W + 2 ^ (s + 7) * lebValue (c :: t)) % 2 ^ W
          = (r + 2 ^ s * lebValue (b :: c :: t)) % 2 ^ W
        rw [Nat.mod_add_mod]
        congr 1
        simp only [lebValue]
        rw [pow_add]
        ring
      · show s + 7 + 7 * (c :: t).length = s + 7 * (b :: c :: t).length
        simp [List.length_cons]
        ring

/-! Closed forms of the two decoders on well-formed encodings. -/

theorem decode_unsigned_eq {W : Nat} {l : List Nat} {last : Nat}
    (henc : isEncoding l = true) (hlast : l.getLast? = some last) :
    decode_unsigned W l =
      if 7 * (l.length - 1) + last.size ≤ W then some (lebValue l % 2 ^ W)
      else none := by
  have hlt : last < 128 := by
    obtain ⟨last', h1, h2⟩ := isEncoding_getLast henc
    rw [hlast] at h1
    injection h1 with h1
    omega
  have hlen : 1 ≤ l.length :=
    List.length_pos.mpr (isEncoding_ne_nil henc)
  have hsize : last.size ≤ 7 := Nat.size_le.mpr (by norm_num; omega)
  simp only [decode_unsigned, hlast]
  rw [decodeCore_spec W l 0 0 henc (by norm_num) (by positivity)]
  simp only [Nat.zero_add, pow_zero, one_mul, clz8_eq (show last < 256 by omega)]
  have hiff : (7 * l.length + 1 - (8 - last.size) ≤ W) ↔
      (7 * (l.length - 1) + last.size ≤ W) := by omega
  rw [if_congr hiff rfl rfl]

theorem decode_signed_eq {W : Nat} {l : List Nat} {last : Nat}
    (henc : isEncoding l = true) (hlast : l.getLast? = some last) :
    decode_signed W l =
      if (if last < 64 then 7 * (l.length - 1) + last.size
          else 7 * (l.length - 1) + 1 + (127 - last).size) ≤ W then
        if 7 * l.length < W ∧ 64 ≤ last then
          if 32 ≤ 7 * l.length then none
          else some (toSigned W (lebValue l % 2 ^ W ||| (2 ^ W - 2 ^ (7 * l.length))))
        else some (toSigned W (lebValue l % 2 ^ W))
      else none := by
  have hlt : last < 128 := by
    obtain ⟨last', h1, h2⟩ := isEncoding_getLast henc
    rw [hlast] at h1
    injection h1 with h1
    omega
  have hlen : 1 ≤ l.length :=
    List.length_pos.mpr (isEncoding_ne_nil henc)
  have hsize : last.size ≤ 7 := Nat.size_le.mpr (by norm_num; omega)
  have hsize' : (127 - last).size ≤ 7 := Nat.size_le.mpr (by norm_num; omega)
  simp only [decode_signed, hlast]
  rw [decodeCore_spec W l 0 0 henc (by norm_num) (by positivity)]
  simp only [Nat.zero_add, pow_zero, one_mul, Nat.mod_eq_of_lt hlt,
    clz8_eq (show last < 256 by omega), clz8_eq (show 127 - last < 256 by omega)]
  have hiff : ((if last < 64 then 7 * l.length + 1 - (8 - last.size)
      else 7 * l.length + 2 - (8 - (127 - last).size)) ≤ W) ↔
      ((if last < 64 then 7 * (l.length - 1) + last.size
        else 7 * (l.length - 1) + 1 + (127 - last).size) ≤ W) := by
    rcases lt_or_ge last 64 with h | h
    · simp only [if_pos h]; omega
    · simp only [if_neg (by omega : ¬last < 64)]; omega
  rw [if_congr hiff rfl rfl]

/-! Structure of the unsigned encoder. -/

theorem encode_unsigned_spec : ∀ v : Nat,
    isEncoding (encode_unsigned v) = true
    ∧ lebValue (encode_unsigned v) = v
    ∧ ∀ last, (encode_unsigned v).getLast? = some last →
        7 * ((encode_unsigned v).length - 1) + last.size = v.size := by
  intro v
  induction v using encode_unsigned.induct with
  | case1 v h =>
    rw [encode_unsigned, dif_pos h]
    have hm : v % 128 = v := by omega
    refine ⟨isEncoding_singleton.mpr (by omega), by simp [lebValue]; omega, ?_⟩
    intro last hl
    have hlv : last = v % 128 := by simpa using hl.symm
    subst hlv
    rw [hm]
    simp
  | case2 v h ih =>
    rw [encode_unsigned, dif_neg h]
    have h128 : 128 ≤ v := by omega
    obtain ⟨ih1, ih2, ih3⟩ := ih
    have hne := isEncoding_ne_nil ih1
    obtain ⟨c, t, hct⟩ := List.exists_cons_of_ne_nil hne
    refine ⟨isEncoding_cons_of (by omega) (by omega) ih1, ?_, ?_⟩
    · simp only [lebValue, ih2]
      omega
    · intro last hl
      rw [hct, List.getLast?_cons_cons] at hl
      have hrec := ih3 last (by rw [hct]; exact hl)
      rw [hct] at hrec ⊢
      rw [size_div128 h128] at *
      simp only [List.length_cons] at *
      omega

theorem encode_unsigned_length : ∀ v : Nat,
    (encode_unsigned v).length = max 1 ((v.size + 6) / 7) := by
  intro v
  induction v using encode_unsigned.induct with
  | case1 v h =>
    rw [encode_unsigned, dif_pos h]
    have : v.size ≤ 7 := Nat.size_le.mpr (by norm_num; omega)
    simp only [List.length_singleton]
    omega
  | case2 v h ih =>
    rw [encode_unsigned, dif_neg h]
    have h128 : 128 ≤ v := by omega
    have hs := size_div128 h128
    have hus : 1 ≤ (v / 128).size := by
      have := Nat.lt_size.mpr (show 2 ^ 0 ≤ v / 128 by simpa using (by omega : 1 ≤ v / 128))
      omega
    simp only [List.length_cons, ih, hs]
    omega

/-! Structure of the signed encoder. -/

theorem msw_step {v : Int}
    (h : ¬((v / 128 = 0 ∧ v % 128 < 64) ∨ (v / 128 = -1 ∧ 64 ≤ v % 128))) :
    minSignedWidth (v / 128) + 7 ≤ minSignedWidth v := by
  unfold minSignedWidth
  rcases le_or_lt 0 v with hv | hv
  · have hq0 : (0 : Int) ≤ v / 128 := Int.ediv_nonneg hv (by norm_num)
    rw [if_pos hv, if_pos hq0]
    by_cases hz : v / 128 = 0
    · have hb : 64 ≤ v % 128 := by
        have : ¬(v % 128 < 64) := fun hc => h (Or.inl ⟨hz, hc⟩)
        omega
      have h64 : 2 ^ 6 ≤ v.toNat := by norm_num; omega
      have := Nat.lt_size.mpr h64
      rw [hz]
      simp only [Int.toNat_zero, Nat.size_zero]
      omega
    · have h128 : 128 ≤ v.toNat := by omega
      have htn : v.toNat / 128 = (v / 128).toNat := by omega
      have hsz := size_div128 h128
      rw [htn] at hsz
      omega
  · have hqneg : v / 128 < 0 := by omega
    rw [if_neg (not_le.mpr hv), if_neg (not_le.mpr hqneg)]
    by_cases hm1 : v / 128 = -1
    · have hb : v % 128 < 64 := by
        have : ¬(64 ≤ v % 128) := fun hc => h (Or.inr ⟨hm1, hc⟩)
        omega
      have hn' : (-(v / 128) - 1).toNat = 0 := by omega
      have h64 : 2 ^ 6 ≤ (-v - 1).toNat := by norm_num; omega
      have := Nat.lt_size.mpr h64
      rw [hn']
      simp only [Nat.size_zero]
      omega
    · have hq2 : v / 128 ≤ -2 := by omega
      have h128 : 128 ≤ (-v - 1).toNat := by omega
      have htn : (-v - 1).toNat / 128 = (-(v / 128) - 1).toNat := by omega
      have hsz := size_div128 h128
      rw [htn] at hsz
      omega

theorem encode_signed_spec : ∀ v : Int,
    isEncoding (encode_signed v) = true
    ∧ (lebValue (encode_signed v) : Int)
        = v + (if v < 0 then 2 ^ (7 * (encode_signed v).length) else 0)
    ∧ (∀ last, (encode_signed v).getLast? = some last → (64 ≤ last ↔ v < 0))
    ∧ (∀ last, (encode_signed v).getLast? = some last →
        (if last < 64 then 7 * ((encode_signed v).length - 1) + last.size
         else 7 * ((encode_signed v).length - 1) + 1 + (127 - last).size)
        ≤ minSignedWidth v) := by
  intro v
  induction v using encode_signed.induct with
  | case1 v h =>
    rw [encode_signed, dif_pos h]
    have hb0 : 0 ≤ v % 128 := Int.emod_nonneg v (by norm_num)
    have hb1 : v % 128 < 128 := Int.emod_lt_of_pos v (by norm_num)
    have hbv : (((v % 128).toNat : Nat) : Int) = v % 128 := Int.toNat_of_nonneg hb0
    have hblt : (v % 128).toNat < 128 := by omega
    rcases h with ⟨hq, hr⟩ | ⟨hq, hr⟩
    · have hvn : ¬v < 0 := by omega
      refine ⟨isEncoding_singleton.mpr hblt, ?_, ?_, ?_⟩
      · simp only [lebValue, Nat.mod_eq_of_lt hblt, if_neg hvn]
        push_cast
        omega
      · intro last hl
        have hlv : last = (v % 128).toNat := by simpa using hl.symm
        subst hlv
        omega
      · intro last hl
        have hlv : last = (v % 128).toNat := by simpa using hl.symm
        subst hlv
        rw [if_pos (by omega : (v % 128).toNat < 64)]
        unfold minSignedWidth
        rw [if_pos (by omega : (0 : Int) ≤ v)]
        have hvt : v.toNat = (v % 128).toNat := by omega
        rw [hvt]
        simp
    · have hvneg : v < 0 := by omega
      refine ⟨isEncoding_singleton.mpr hblt, ?_, ?_, ?_⟩
      · simp only [lebValue, Nat.mod_eq_of_lt hblt, if_pos hvneg,
          List.length_singleton]
        push_cast
        omega
      · intro last hl
        have hlv : last = (v % 128).toNat := by simpa using hl.symm
        subst hlv
        omega
      · intro last hl
        have hlv : last = (v % 128).toNat := by simpa using hl.symm
        subst hlv
        rw [if_neg (by omega : ¬(v % 128).toNat < 64)]
        unfold minSignedWidth
        rw [if_neg (by omega : ¬(0 : Int) ≤ v)]
        have hvt : (-v - 1).toNat = 127 - (v % 128).toNat := by omega
        rw [hvt]
        simp only [List.length_singleton]
        omega
  | case2 v h ih =>
    rw [encode_signed, dif_neg h]
    obtain ⟨ih1, ih2, ih3, ih4⟩ := ih
    have hb0 : 0 ≤ v % 128 := Int.emod_nonneg v (by norm_num)
    have hb1 : v % 128 < 128 := Int.emod_lt_of_pos v (by norm_num)
    have hbv : (((v % 128).toNat : Nat) : Int) = v % 128 := Int.toNat_of_nonneg hb0
    have hsign : v < 0 ↔ v / 128 < 0 := by omega
    have hne := isEncoding_ne_nil ih1
    obtain ⟨c, t, hct⟩ := List.exists_cons_of_ne_nil hne
    refine ⟨isEncoding_cons_of (by omega) (by omega) ih1, ?_, ?_, ?_⟩
    · simp only [lebValue, List.length_cons]
      have hmod : ((v % 128).toNat + 128) % 128 = (v % 128).toNat := by omega
      rw [hmod]
      push_cast
      rw [ih2]
      rcases lt_or_ge v 0 with hv | hv
      · rw [if_pos hv, if_pos (hsign.mp hv)]
        have hpow : (2 : Int) ^ (7 * ((encode_signed (v / 128)).length + 1)) =
            2 ^ (7 * (encode_signed (v / 128)).length) * 128 := by
          rw [show 7 * ((encode_signed (v / 128)).length + 1) =
            7 * (encode_signed (v / 128)).length + 7 by ring, pow_add]
          norm_num
        rw [hpow]
        omega
      · rw [if_neg (not_lt.mpr hv), if_neg (by omega : ¬v / 128 < 0)]
        omega
    · intro last hl
      rw [hct, List.getLast?_cons_cons] at hl
      have hrec := ih3 last (by rw [hct]; exact hl)
      omega
    · intro last hl
      rw [hct, List.getLast?_cons_cons] at hl
      have hrec := ih4 last (by rw [hct]; exact hl)
      have hstep := msw_step h
      rw [hct] at hrec ⊢
      simp only [List.length_cons] at *
      rcases lt_or_ge last 64 with h64 | h64
      · rw [if_pos h64] at hrec ⊢
        omega
      · rw [if_neg (not_lt.mpr h64)] at hrec ⊢
        omega

/-! Round trips. -/

theorem roundtrip_unsigned {W v : Nat} (hv : v < 2 ^ W) :
    decode_unsigned W (encode_unsigned v) = some v := by
  obtain ⟨h1, h2, h3⟩ := encode_unsigned_spec v
  obtain ⟨last, hl, hlt⟩ := isEncoding_getLast h1
  rw [decode_unsigned_eq h1 hl, h2, h3 last hl, if_pos (Nat.size_le.mpr hv),
    Nat.mod_eq_of_lt hv]

theorem roundtrip_signed {W : Nat} (hW : 1 ≤ W) {v : Int}
    (hlo : -(2 ^ (W - 1)) ≤ v) (hhi : v < 2 ^ (W - 1))
    (hok : 0 ≤ v ∨ 7 * (encode_signed v).length < 32
      ∨ W ≤ 7 * (encode_signed v).length) :
    decode_signed W (encode_signed v) = some v := by
  obtain ⟨e1, e2, e3, e4⟩ := encode_signed_spec v
  obtain ⟨last, hl, hlast128⟩ := isEncoding_getLast e1
  rw [decode_signed_eq e1 hl]
  have hlen1 : 1 ≤ (encode_signed v).length :=
    List.length_pos.mpr (isEncoding_ne_nil e1)
  have hcast1 : ((2 ^ (W - 1) : Nat) : Int) = 2 ^ (W - 1) := by push_cast; rfl
  have hcastW : ((2 ^ W : Nat) : Int) = 2 ^ W := by push_cast; rfl
  have hpow2 : (2 : Nat) ^ W = 2 ^ (W - 1) * 2 := by
    rw [← pow_succ]
    congr 1
    omega
  have hmsw : minSignedWidth v ≤ W := by
    unfold minSignedWidth
    rcases le_or_lt 0 v with hv0 | hv0
    · rw [if_pos hv0]
      have hvt : v.toNat < 2 ^ (W - 1) := by omega
      have := Nat.size_le.mpr hvt
      omega
    · rw [if_neg (not_le.mpr hv0)]
      have hvt : (-v - 1).toNat < 2 ^ (W - 1) := by omega
      have := Nat.size_le.mpr hvt
      omega
  rw [if_pos (le_trans (e4 last hl) hmsw)]
  have hls7 : last.size ≤ 7 := Nat.size_le.mpr (by norm_num; omega)
  have hLlt : lebValue (encode_signed v) < 2 ^ (7 * (encode_signed v).length) := by
    refine lt_of_lt_of_le (lebValue_lt e1 hl) ?_
    rw [← pow_add]
    exact Nat.pow_le_pow_right (by norm_num) (by omega)
  rcases lt_or_ge v 0 with hv0 | hv0
  · have h64 : 64 ≤ last := (e3 last hl).mpr hv0
    have hE2 : (lebValue (encode_signed v) : Int)
        = v + 2 ^ (7 * (encode_signed v).length) := by
      rw [e2, if_pos hv0]
    by_cases hsW : 7 * (encode_signed v).length < W
    · have h32 : ¬32 ≤ 7 * (encode_signed v).length := by
        rcases hok with h | h | h <;> omega
      rw [if_pos ⟨hsW, h64⟩, if_neg h32]
      congr 1
      have hLW : lebValue (encode_signed v) < 2 ^ W :=
        lt_of_lt_of_le hLlt (Nat.pow_le_pow_right (by norm_num) (by omega))
      rw [Nat.mod_eq_of_lt hLW]
      have hCsplit : (2 : Nat) ^ W = 2 ^ (7 * (encode_signed v).length) *
          2 ^ (W - 7 * (encode_signed v).length) := by
        rw [← pow_add]
        congr 1
        omega
      have hone : 1 ≤ (2 : Nat) ^ (W - 7 * (encode_signed v).length) :=
        Nat.one_le_two_pow
      have hsplit : (2 : Nat) ^ W - 2 ^ (7 * (encode_signed v).length)
          = 2 ^ (7 * (encode_signed v).length) *
            (2 ^ (W - 7 * (encode_signed v).length) - 1) := by
        have h1 : 2 ^ (7 * (encode_signed v).length) *
            (2 ^ (W - 7 * (encode_signed v).length) - 1 + 1) = 2 ^ W := by
          rw [Nat.sub_add_cancel hone]
          exact hCsplit.symm
        have h2 : 2 ^ (7 * (encode_signed v).length) *
            (2 ^ (W - 7 * (encode_signed v).length) - 1 + 1)
            = 2 ^ (7 * (encode_signed v).length) *
              (2 ^ (W - 7 * (encode_signed v).length) - 1)
              + 2 ^ (7 * (encode_signed v).length) := by ring
        omega
      rw [hsplit, lor_two_pow_mul_add _ _ hLlt]
      have hsle : (2 : Nat) ^ (7 * (encode_signed v).length) ≤ 2 ^ W :=
        Nat.pow_le_pow_right (by norm_num) (by omega)
      have hpowcast : ((2 ^ (7 * (encode_signed v).length) : Nat) : Int)
          = 2 ^ (7 * (encode_signed v).length) := by push_cast; rfl
      have hNn : 2 ^ (7 * (encode_signed v).length) *
          (2 ^ (W - 7 * (encode_signed v).length) - 1) + lebValue (encode_signed v)
          = 2 ^ W - 2 ^ (7 * (encode_signed v).length) + lebValue (encode_signed v) := by
        rw [hsplit]
      have hNI : ((2 ^ (7 * (encode_signed v).length) *
          (2 ^ (W - 7 * (encode_signed v).length) - 1)
          + lebValue (encode_signed v) : Nat) : Int) = v + 2 ^ W := by
        omega
      unfold toSigned
      rw [if_neg (by omega : ¬2 ^ (7 * (encode_signed v).length) *
        (2 ^ (W - 7 * (encode_signed v).length) - 1)
        + lebValue (encode_signed v) < 2 ^ (W - 1))]
      omega
    · rw [if_neg (fun hc => hsW hc.1)]
      congr 1
      have hcastmod : ((lebValue (encode_signed v) % 2 ^ W : Nat) : Int)
          = (lebValue (encode_signed v) : Int) % ((2 : Int) ^ W) := by
        push_cast
        rfl
      have hseq : (2 : Int) ^ (7 * (encode_signed v).length)
          = 2 ^ W * 2 ^ (7 * (encode_signed v).length - W) := by
        rw [← pow_add]
        congr 1
        omega
      have hfix : v % ((2 : Int) ^ W) = v + 2 ^ W := by
        have h1 : (v + 2 ^ W) % ((2 : Int) ^ W) = v % 2 ^ W := by
          conv_lhs => rw [show v + (2 : Int) ^ W = v + 2 ^ W * 1 by ring]
          exact Int.add_mul_emod_self_left v (2 ^ W) 1
        rw [← h1]
        exact Int.emod_eq_of_lt (by omega) (by omega)
      have hvmod : (lebValue (encode_signed v) : Int) % ((2 : Int) ^ W)
          = v + 2 ^ W := by
        rw [hE2, hseq, Int.add_mul_emod_self_left, hfix]
      unfold toSigned
      rw [if_neg (by omega : ¬lebValue (encode_signed v) % 2 ^ W < 2 ^ (W - 1))]
      omega
  · have hlne : ¬64 ≤ last := fun hc => absurd ((e3 last hl).mp hc) (not_lt.mpr hv0)
    rw [if_neg (fun hc => hlne hc.2)]
    congr 1
    have hL : (lebValue (encode_signed v) : Int) = v := by
      rw [e2, if_neg (not_lt.mpr hv0)]
      ring
    have hLn : lebValue (encode_signed v) = v.toNat := by omega
    have hvW : v.toNat < 2 ^ (W - 1) := by omega
    have hvW2 : v.toNat < 2 ^ W := by omega
    rw [hLn, Nat.mod_eq_of_lt hvW2]
    unfold toSigned
    rw [if_pos hvW]
    exact Int.toNat_of_nonneg hv0

/-! Bounds relating the signed encoding length to the minimal signed width,
and the exact region where the lib.rs:121 `1i32 << shift` overflow fires. -/

theorem msw_div_le (v : Int) :
    minSignedWidth v ≤ minSignedWidth (v / 128) + 7 := by
  unfold minSignedWidth
  rcases le_or_lt 0 v with hv | hv
  · rw [if_pos hv, if_pos (Int.ediv_nonneg hv (by norm_num))]
    have hq : v.toNat / 128 = (v / 128).toNat := by omega
    have h1 : v.toNat / 128 < 2 ^ (v.toNat / 128).size := Nat.lt_size_self _
    have h2 : v.toNat < 2 ^ ((v.toNat / 128).size + 7) := by
      have he : (2 : Nat) ^ ((v.toNat / 128).size + 7)
          = 2 ^ (v.toNat / 128).size * 128 := by
        rw [pow_add]; norm_num
      rw [he]
      calc v.toNat < (v.toNat / 128 + 1) * 128 := by omega
      _ ≤ 2 ^ (v.toNat / 128).size * 128 := Nat.mul_le_mul_right _ (by omega)
    have := Nat.size_le.mpr h2
    rw [← hq]
    omega
  · have hqneg : v / 128 < 0 := by omega
    rw [if_neg (not_le.mpr hv), if_neg (not_le.mpr hqneg)]
    have hq : (-v - 1).toNat / 128 = (-(v / 128) - 1).toNat := by omega
    have h1 : (-v - 1).toNat / 128 < 2 ^ ((-v - 1).toNat / 128).size :=
      Nat.lt_size_self _
    have h2 : (-v - 1).toNat < 2 ^ (((-v - 1).toNat / 128).size + 7) := by
      have he : (2 : Nat) ^ (((-v - 1).toNat / 128).size + 7)
          = 2 ^ ((-v - 1).toNat / 128).size * 128 := by
        rw [pow_add]; norm_num
      rw [he]
      calc (-v - 1).toNat < ((-v - 1).toNat / 128 + 1) * 128 := by omega
      _ ≤ 2 ^ ((-v - 1).toNat / 128).size * 128 := Nat.mul_le_mul_right _ (by omega)
    have := Nat.size_le.mpr h2
    rw [← hq]
    omega

theorem encode_signed_msw_lt : ∀ v : Int,
    7 * ((encode_signed v).length - 1) < minSignedWidth v := by
  intro v
  induction v using encode_signed.induct with
  | case1 v h =>
    rw [encode_signed, dif_pos h]
    simp only [List.length_singleton]
    unfold minSignedWidth
    split_ifs <;> omega
  | case2 v h ih =>
    rw [encode_signed, dif_neg h]
    have hstep := msw_step h
    have hlen1 : 1 ≤ (encode_signed (v / 128)).length :=
      List.length_pos.mpr (isEncoding_ne_nil (encode_signed_spec (v / 128)).1)
    simp only [List.length_cons]
    omega

theorem encode_signed_msw_le : ∀ v : Int,
    minSignedWidth v ≤ 7 * (encode_signed v).length := by
  intro v
  induction v using encode_signed.induct with
  | case1 v h =>
    rw [encode_signed, dif_pos h]
    simp only [List.length_singleton]
    have hb0 : 0 ≤ v % 128 := Int.emod_nonneg v (by norm_num)
    have hb1 : v % 128 < 128 := Int.emod_lt_of_pos v (by norm_num)
    unfold minSignedWidth
    rcases h with ⟨hq, hr⟩ | ⟨hq, hr⟩
    · rw [if_pos (by omega : (0 : Int) ≤ v)]
      have hvt : v.toNat < 2 ^ 6 := by norm_num; omega
      have := Nat.size_le.mpr hvt
      omega
    · rw [if_neg (by omega : ¬(0 : Int) ≤ v)]
      have hvt : (-v - 1).toNat < 2 ^ 6 := by norm_num; omega
      have := Nat.size_le.mpr hvt
      omega
  | case2 v h ih =>
    rw [encode_signed, dif_neg h]
    have hd := msw_div_le v
    simp only [List.length_cons]
    omega

theorem roundtrip_signed_cases {W : Nat} (hW : 1 ≤ W) (hW64 : W ≤ 64) {v : Int}
    (hlo : -(2 ^ (W - 1)) ≤ v) (hhi : v < 2 ^ (W - 1))
    (hok : W ≤ 32 ∨ -(2 ^ 27) ≤ v ∨ v < -(2 ^ 62)) :
    decode_signed W (encode_signed v) = some v := by
  refine roundtrip_signed hW hlo hhi ?_
  rcases le_or_lt 0 v with hv | hv
  · exact Or.inl hv
  · have hlt := encode_signed_msw_lt v
    have hle := encode_signed_msw_le v
    have hmswv : minSignedWidth v = (-v - 1).toNat.size + 1 := by
      unfold minSignedWidth
      rw [if_neg (not_le.mpr hv)]
    rcases hok with h | h | h
    · rcases le_or_lt W (7 * (encode_signed v).length) with h2 | h2
      · exact Or.inr (Or.inr h2)
      · exact Or.inr (Or.inl (by omega))
    · have hn : (-v - 1).toNat < 2 ^ 27 := by
        have hc : ((2 ^ 27 : Nat) : Int) = 2 ^ 27 := by norm_num
        omega
      have := Nat.size_le.mpr hn
      exact Or.inr (Or.inl (by omega))
    · have hn : 2 ^ 62 ≤ (-v - 1).toNat := by
        have hc : ((2 ^ 62 : Nat) : Int) = 2 ^ 62 := by norm_num
        omega
      have := Nat.lt_size.mpr hn
      exact Or.inr (Or.inr (by omega))

theorem decode_band_none {v : Int} (h1 : -(2 ^ 62) ≤ v) (h2 : v < -(2 ^ 27)) :
    decode_signed 64 (encode_signed v) = none := by
  obtain ⟨e1, e2, e3, e4⟩ := encode_signed_spec v
  obtain ⟨last, hl, hlast128⟩ := isEncoding_getLast e1
  have hv0 : v < 0 := by
    have : (0 : Int) < 2 ^ 27 := by positivity
    omega
  have h64 : 64 ≤ last := (e3 last hl).mpr hv0
  have hmswv : minSignedWidth v = (-v - 1).toNat.size + 1 := by
    unfold minSignedWidth
    rw [if_neg (not_le.mpr hv0)]
  have hnlo : 2 ^ 27 ≤ (-v - 1).toNat := by
    have hc : ((2 ^ 27 : Nat) : Int) = 2 ^ 27 := by norm_num
    omega
  have hnhi : (-v - 1).toNat < 2 ^ 62 := by
    have hc : ((2 ^ 62 : Nat) : Int) = 2 ^ 62 := by norm_num
    omega
  have hs1 := Nat.lt_size.mpr hnlo
  have hs2 := Nat.size_le.mpr hnhi
  have hlt := encode_signed_msw_lt v
  have hle := encode_signed_msw_le v
  have hcond := le_trans (e4 last hl) (show minSignedWidth v ≤ 64 by omega)
  have hA : 7 * (encode_signed v).length < 64 := by omega
  have hB : 32 ≤ 7 * (encode_signed v).length := by omega
  rw [decode_signed_eq e1 hl, if_pos hcond, if_pos ⟨hA, h64⟩, if_pos hB]

/-- The encoding of -2^31, whose sign-extension shift at decode is 35. -/
theorem encode_signed_neg31 :
    encode_signed (-(2 ^ 31)) = [0x80, 0x80, 0x80, 0x80, 0x78] := by
  rw [encode_signed]
  norm_num
  rw [encode_signed]
  norm_num
  rw [encode_signed]
  norm_num
  rw [encode_signed]
  norm_num
  rw [encode_signed]
  norm_num
  decide

/-! Parsing: from_bytes and all_from_bytes. -/

theorem from_bytes_eq_some : ∀ {pre : List Nat} {b : Nat} (suf : List Nat),
    (∀ x ∈ pre, 128 ≤ x) → b < 128 →
    from_bytes (pre ++ b :: suf) = some (pre ++ [b]) := by
  intro pre
  induction pre with
  | nil =>
    intro b suf _ hb
    simp [from_bytes, hb]
  | cons p t ih =>
    intro b suf h hb
    have hp : 128 ≤ p := h p (by simp)
    simp only [List.cons_append, from_bytes, if_neg (by omega : ¬p < 128), List.append_eq]
    rw [ih _ (fun x hx => h x (by simp [hx])) hb]
    rfl

theorem from_bytes_none_iff : ∀ {l : List Nat},
    from_bytes l = none ↔ ∀ x ∈ l, 128 ≤ x := by
  intro l
  induction l with
  | nil => simp [from_bytes]
  | cons b t ih =>
    by_cases hb : b < 128
    · constructor
      · intro h
        simp [from_bytes, hb] at h
      · intro h
        exact absurd (h b (by simp)) (by omega)
    · simp only [from_bytes, if_neg hb]
      rw [Option.map_eq_none', ih]
      constructor
      · intro h x hx
        rcases List.mem_cons.mp hx with rfl | hx'
        · omega
        · exact h x hx'
      · intro h x hx
        exact h x (by simp [hx])

theorem isEncoding_append_singleton : ∀ {cur : List Nat} {b : Nat},
    (∀ x ∈ cur, 128 ≤ x ∧ x < 256) → b < 128 →
    isEncoding (cur ++ [b]) = true := by
  intro cur
  induction cur with
  | nil =>
    intro b _ hb
    exact isEncoding_singleton.mpr hb
  | cons c t ih =>
    intro b h hb
    have hrec := ih (fun x hx => h x (by simp [hx])) hb
    rw [List.cons_append]
    exact isEncoding_cons_of (h c (by simp)).1 (h c (by simp)).2 hrec

theorem allStep_fold : ∀ (l : List Nat) (res : List (List Nat)) (cur : List Nat),
    (l.foldl allStep (res, cur)).1.flatten ++ (l.foldl allStep (res, cur)).2
      = res.flatten ++ (cur ++ l)
    ∧ ((∀ x ∈ l, x < 256) → (∀ g ∈ res, isEncoding g = true) →
       (∀ x ∈ cur, 128 ≤ x ∧ x < 256) →
       (∀ g ∈ (l.foldl allStep (res, cur)).1, isEncoding g = true)
       ∧ ∀ x ∈ (l.foldl allStep (res, cur)).2, 128 ≤ x ∧ x < 256) := by
  intro l
  induction l with
  | nil =>
    intro res cur
    refine ⟨by simp, fun _ hres hcur => ⟨by simpa using hres, by simpa using hcur⟩⟩
  | cons b t ih =>
    intro res cur
    simp only [List.foldl_cons]
    by_cases hb : b < 128
    · have hstep : allStep (res, cur) b = (res ++ [cur ++ [b]], []) := by
        simp [allStep, hb]
      rw [hstep]
      obtain ⟨ih1, ih2⟩ := ih (res ++ [cur ++ [b]]) []
      constructor
      · rw [ih1]
        simp
      · intro hl hres hcur
        refine ih2 (fun x hx => hl x (by simp [hx])) ?_ (by simp)
        intro g hg
        rcases List.mem_append.mp hg with h | h
        · exact hres g h
        · have : g = cur ++ [b] := by simpa using h
          subst this
          exact isEncoding_append_singleton hcur hb
    · have hstep : allStep (res, cur) b = (res, cur ++ [b]) := by
        simp [allStep, hb]
      rw [hstep]
      obtain ⟨ih1, ih2⟩ := ih res (cur ++ [b])
      constructor
      · rw [ih1]
        simp
      · intro hl hres hcur
        refine ih2 (fun x hx => hl x (by simp [hx])) hres ?_
        intro x hx
        rcases List.mem_append.mp hx with h | h
        · exact hcur x h
        · have : x = b := by simpa using h
          subst this
          exact ⟨by omega, hl x (by simp)⟩

theorem all_from_bytes_spec {l : List Nat} {vs : List (List Nat)}
    (hb : ∀ x ∈ l, x < 256) (h : all_from_bytes l = some vs) :
    vs.flatten = l ∧ ∀ g ∈ vs, isEncoding g = true := by
  obtain ⟨h1, h2⟩ := allStep_fold l [] []
  unfold all_from_bytes at h
  by_cases hc : (l.foldl allStep ([], [])).2 = []
  · rw [if_pos hc] at h
    injection h with h
    subst h
    rw [hc] at h1
    simp at h1
    exact ⟨h1, (h2 hb (by simp) (by simp)).1⟩
  · rw [if_neg hc] at h
    cases h

theorem all_from_bytes_concat_none : ∀ (l : List Nat) (b : Nat),
    all_from_bytes (l ++ [b]) = none ↔ 128 ≤ b := by
  intro l b
  unfold all_from_bytes
  rw [List.foldl_append]
  simp only [List.foldl_cons, List.foldl_nil]
  by_cases hb : b < 128
  · have hstep : allStep (l.foldl allStep ([], [])) b =
        ((l.foldl allStep ([], [])).1 ++ [(l.foldl allStep ([], [])).2 ++ [b]],
          []) := by
      simp [allStep, hb]
    rw [hstep]
    simp
    omega
  · have hstep : allStep (l.foldl allStep ([], [])) b =
        ((l.foldl allStep ([], [])).1,
          (l.foldl allStep ([], [])).2 ++ [b]) := by
      simp [allStep, hb]
    rw [hstep]
    simp
    omega

/-! The claims. -/

/-- C1 (amended): decoding encode(v) at the same native width returns v with
no failure on the unsigned path at every width, and on the signed path at
widths 8, 16 and 32 for every value; at width 64 the signed path round-trips
exactly the values with -2^27 ≤ v (including all non-negative values) or
v < -2^62, while for -2^62 ≤ v < -2^27 — encodings of 5 to 9 bytes, whose
sign-extension shift is 35..63 — `expect_i64` fails instead, because
src/lib.rs:121 evaluates `1 << shift` at type `i32`.  (The unamended
round-trip is refuted by the counterexample.) -/
theorem claim_C1 : ∀ W : Nat, W = 8 ∨ W = 16 ∨ W = 32 ∨ W = 64 →
    (∀ v : Nat, v < 2 ^ W → decode_unsigned W (encode_unsigned v) = some v)
    ∧ (∀ v : Int, -(2 ^ (W - 1)) ≤ v → v < 2 ^ (W - 1) →
        W ≤ 32 ∨ -(2 ^ 27) ≤ v ∨ v < -(2 ^ 62) →
        decode_signed W (encode_signed v) = some v)
    ∧ ∀ v : Int, W = 64 → -(2 ^ 62) ≤ v → v < -(2 ^ 27) →
        decode_signed W (encode_signed v) = none := by
  intro W hW
  refine ⟨fun v hv => roundtrip_unsigned hv,
    fun v h1 h2 h3 => roundtrip_signed_cases (by omega) (by omega) h1 h2 h3,
    fun v hw h1 h2 => ?_⟩
  subst hw
  exact decode_band_none h1 h2

/-- Counterexample to C1 as stated: -2^31 is a 64-bit signed value, but
`expect_i64` on its encoding `[0x80,0x80,0x80,0x80,0x78]` (total shift 35)
fails on the src/lib.rs:121 `i32` shift overflow instead of returning
-2^31. -/
theorem claim_C1_counterexample :
    encode_signed (-(2 ^ 31)) = [0x80, 0x80, 0x80, 0x80, 0x78]
    ∧ decode_signed 64 [0x80, 0x80, 0x80, 0x80, 0x78] = none
    ∧ -(2 ^ (64 - 1)) ≤ -((2 : Int) ^ 31) ∧ -((2 : Int) ^ 31) < 2 ^ (64 - 1) :=
  ⟨encode_signed_neg31, by decide, by norm_num, by norm_num⟩

/-- Witness for C1 at width 8, values 200 and -100, and a width-64 value in
the failing band. -/
theorem claim_C1_witness :
    decode_unsigned 8 (encode_unsigned 200) = some 200
    ∧ decode_signed 8 (encode_signed (-100)) = some (-100)
    ∧ decode_signed 64 (encode_signed (-(2 ^ 30))) = none := by
  have h := claim_C1 8 (Or.inl rfl)
  have h64 := claim_C1 64 (by norm_num)
  exact ⟨h.1 200 (by norm_num),
    h.2.1 (-100) (by norm_num) (by norm_num) (Or.inl (by norm_num)),
    h64.2.2 (-(2 ^ 30)) rfl (by norm_num) (by norm_num)⟩

/-- C2 (amended): on a complete encoding, `expect_uW` fails with overflow
whenever the encoded value does not fit in W bits, and returns the value
whenever it fits and the final byte is nonzero (true of every minimal
encoding); the two boundary examples of the claim hold.  (The unamended
claim fails when the final byte is 0x00: see the counterexample.) -/
theorem claim_C2 :
    (∀ (W : Nat) (l : List Nat) (last : Nat), isEncoding l = true →
      l.getLast? = some last →
      (2 ^ W ≤ lebValue l → decode_unsigned W l = none)
      ∧ (last ≠ 0 → lebValue l < 2 ^ W → decode_unsigned W l = some (lebValue l)))
    ∧ decode_unsigned 8 [0x80, 0x02] = none
    ∧ decode_unsigned 32 [0xFF, 0xFF, 0xFF, 0xFF, 0x0F] = some 0xFFFFFFFF := by
  refine ⟨?_, by decide, by decide⟩
  intro W l last henc hlast
  have hlen : 1 ≤ l.length := List.length_pos.mpr (isEncoding_ne_nil henc)
  rw [decode_unsigned_eq henc hlast]
  constructor
  · intro hge
    have hL := lebValue_lt henc hlast
    have hlt2 : (2 : Nat) ^ W < 2 ^ (7 * (l.length - 1) + last.size) := by
      rw [pow_add]
      exact lt_of_le_of_lt hge hL
    have := (Nat.pow_lt_pow_iff_right (by norm_num : (1 : Nat) < 2)).mp hlt2
    rw [if_neg (by omega)]
  · intro hne hltW
    have hge := lebValue_ge henc hlast hne
    have h1 : (2 : Nat) ^ (7 * (l.length - 1) + (last.size - 1)) ≤ lebValue l := by
      rw [pow_add]
      exact hge
    have h2 := lt_of_le_of_lt h1 hltW
    have h3 := (Nat.pow_lt_pow_iff_right (by norm_num : (1 : Nat) < 2)).mp h2
    have h4 : 1 ≤ last.size := Nat.size_pos.mpr (Nat.pos_of_ne_zero hne)
    rw [if_pos (by omega), Nat.mod_eq_of_lt hltW]

/-- Counterexample to C2 as stated: `[0x80, 0x80, 0x00]` is one complete
LEB128 encoding whose value 0 fits in 8 bits, yet `expect_u8` fails, because
the overflow check uses only the final byte's position and leading zeros. -/
theorem claim_C2_counterexample :
    isEncoding [0x80, 0x80, 0x00] = true
    ∧ lebValue [0x80, 0x80, 0x00] = 0
    ∧ lebValue [0x80, 0x80, 0x00] < 2 ^ 8
    ∧ decode_unsigned 8 [0x80, 0x80, 0x00] = none := by decide

/-- Witness for C2 on the two-byte encoding of 130 at width 8. -/
theorem claim_C2_witness :
    decode_unsigned 8 [0x82, 0x01] = some 130
    ∧ decode_unsigned 8 [0x80, 0x02] = none := by
  have h := (claim_C2.1 8 [0x82, 0x01] 1 (by decide) (by decide)).2
    (by decide) (by decide)
  have he : lebValue [0x82, 0x01] = 130 := by decide
  rw [he] at h
  exact ⟨h, claim_C2.2.1⟩

/-- C3 (code bug): the signed overflow check is claimed to fail exactly when
the value's true minimal two's-complement width exceeds W.  The code's
positive-case count is off by one: `[0x80, 0x01]`, the encoding of +128
(minimal signed width 9), passes the width-8 check and `expect_i8` returns
-128 instead of failing; conversely the non-minimal encoding
`[0xFF, 0xFF, 0x7F]` of -1 (minimal signed width 1) is rejected at width 8. -/
theorem claim_C3_bug :
    encode_signed 128 = [0x80, 0x01]
    ∧ minSignedWidth 128 = 9
    ∧ decode_signed 8 [0x80, 0x01] = some (-128)
    ∧ minSignedWidth (-1) = 1
    ∧ decode_signed 8 [0xFF, 0xFF, 0x7F] = none := by
  refine ⟨?_, ?_, by decide, ?_, by decide⟩
  · rw [encode_signed]
    norm_num
    rw [encode_signed]
    norm_num
  · have h8 : (128 : Nat).size = 8 := size_of_range (k := 7) (by norm_num) (by norm_num)
    unfold minSignedWidth
    rw [if_pos (by norm_num : (0 : Int) ≤ 128)]
    have ht : (128 : Int).toNat = 128 := rfl
    rw [ht, h8]
  · unfold minSignedWidth
    rw [if_neg (by norm_num : ¬(0 : Int) ≤ -1)]
    norm_num

/-- C4: unsigned encode never fails and produces exactly
`max 1 (ceil(bitlength/7))` bytes, and the canonical example 624485 encodes
as `[0xE5, 0x8E, 0x26]` with `byte_count` 3. -/
theorem claim_C4 :
    (∀ v : Nat, byte_count (encode_unsigned v) = max 1 ((Nat.size v + 6) / 7))
    ∧ encode_unsigned 624485 = [0xE5, 0x8E, 0x26]
    ∧ byte_count (encode_unsigned 624485) = 3 := by
  have he : encode_unsigned 624485 = [0xE5, 0x8E, 0x26] := by
    rw [encode_unsigned]
    norm_num
    rw [encode_unsigned]
    norm_num
    rw [encode_unsigned]
    norm_num
  exact ⟨fun v => encode_unsigned_length v, he, by simp [byte_count, he]⟩

/-- C5: signed encode of 0 is the single byte 0x00 and of -1 the single byte
0x7F (the embedded loop is width-independent, so this holds at every signed
width), and at the 7-bit group boundary -127, -128 and -129 encode as
`[0x81, 0x7F]`, `[0x80, 0x7F]` and `[0xFF, 0x7E]`. -/
theorem claim_C5 :
    encode_signed 0 = [0x00]
    ∧ encode_signed (-1) = [0x7F]
    ∧ encode_signed (-127) = [0x81, 0x7F]
    ∧ encode_signed (-128) = [0x80, 0x7F]
    ∧ encode_signed (-129) = [0xFF, 0x7E] := by
  refine ⟨?_, ?_, ?_, ?_, ?_⟩
  · rw [encode_signed]
    norm_num
  · rw [encode_signed]
    norm_num
    decide
  · rw [encode_signed]
    norm_num
    rw [encode_signed]
    norm_num
    decide
  · rw [encode_signed]
    norm_num
    rw [encode_signed]
    norm_num
    decide
  · rw [encode_signed]
    norm_num
    rw [encode_signed]
    norm_num
    decide

/-- C6: every byte sequence produced by encode (signed or unsigned, any
value) satisfies the encoded-value invariant: nonempty, every byte except
the last has the continuation bit set, the last has it clear, no trailing
bytes. -/
theorem claim_C6 :
    (∀ v : Nat, isEncoding (encode_unsigned v) = true)
    ∧ ∀ v : Int, isEncoding (encode_signed v) = true :=
  ⟨fun v => (encode_unsigned_spec v).1, fun v => (encode_signed_spec v).1⟩

/-- C7: `from_bytes` returns exactly the prefix up to and including the
first byte with a clear continuation bit, and fails precisely when every
byte of the input has the bit set — which includes the empty input. -/
theorem claim_C7 :
    (∀ (pre suf : List Nat) (b : Nat), (∀ x ∈ pre, 128 ≤ x) → b < 128 →
      from_bytes (pre ++ b :: suf) = some (pre ++ [b]))
    ∧ ∀ l : List Nat, from_bytes l = none ↔ ∀ x ∈ l, 128 ≤ x :=
  ⟨fun _ suf _ h hb => from_bytes_eq_some suf h hb, fun _ => from_bytes_none_iff⟩

/-- Witness for C7: a two-byte value with a trailing byte, and an input with
no terminator. -/
theorem claim_C7_witness :
    from_bytes [200, 5, 9] = some [200, 5] ∧ from_bytes [200, 130] = none := by
  constructor
  · exact claim_C7.1 [200] [9] 5 (by decide) (by decide)
  · exact (claim_C7.2 [200, 130]).mpr (by decide)

/-- C8: `all_from_bytes` splits at each clear-continuation-bit byte: on
`[0x7F, 0x80, 0x01]` it yields the two values 127 and 128, with one extra
trailing high-bit byte it fails, and in general a nonempty input fails
exactly when its final byte has the continuation bit set. -/
theorem claim_C8 :
    all_from_bytes [0x7F, 0x80, 0x01] = some [[0x7F], [0x80, 0x01]]
    ∧ decode_unsigned 32 [0x7F] = some 127
    ∧ decode_unsigned 32 [0x80, 0x01] = some 128
    ∧ all_from_bytes [0x7F, 0x80, 0x01, 0x80] = none
    ∧ ∀ (l : List Nat) (b : Nat), all_from_bytes (l ++ [b]) = none ↔ 128 ≤ b :=
  ⟨by decide, by decide, by decide, by decide,
   fun l b => all_from_bytes_concat_none l b⟩

/-- Witness for C8 on a trailing-continuation input. -/
theorem claim_C8_witness : all_from_bytes [0x7F, 0x90] = none :=
  (claim_C8.2.2.2.2 [0x7F] 0x90).mpr (by norm_num)

/-- C9: whenever `all_from_bytes` succeeds the returned views are contiguous
and non-overlapping — concatenated in order they equal the entire input —
and each satisfies the single-complete-encoding invariant; the empty input
succeeds with an empty vector. -/
theorem claim_C9 :
    (∀ (l : List Nat) (vs : List (List Nat)), (∀ x ∈ l, x < 256) →
      all_from_bytes l = some vs →
      vs.flatten = l ∧ ∀ g ∈ vs, isEncoding g = true)
    ∧ all_from_bytes [] = some [] :=
  ⟨fun _ _ hb h => all_from_bytes_spec hb h, by decide⟩

/-- Witness for C9 on the input `[5, 200, 3]`. -/
theorem claim_C9_witness :
    ([[5], [200, 3]] : List (List Nat)).flatten = [5, 200, 3]
    ∧ isEncoding [200, 3] = true := by
  have h := claim_C9.1 [5, 200, 3] [[5], [200, 3]] (by decide) (by decide)
  exact ⟨h.1, h.2 [200, 3] (by simp)⟩

/-- C10 (amended): encoded bytes are width-agnostic under widening — a value
of a narrower native width decodes at any wider native width of the same
signedness to the same value — always on the unsigned path, and on the
signed path whenever the target width is at most 32 or the value is at
least -2^27 or below -2^62; widening a negative value in [-2^62, -2^27) to
64 bits instead fails on the src/lib.rs:121 `i32` shift overflow (see the
counterexample, `expect_i64` of `encode(-2^31)`). -/
theorem claim_C10 : ∀ W1 W2 : Nat,
    W1 = 8 ∨ W1 = 16 ∨ W1 = 32 ∨ W1 = 64 →
    W2 = 8 ∨ W2 = 16 ∨ W2 = 32 ∨ W2 = 64 → W1 ≤ W2 →
    (∀ v : Nat, v < 2 ^ W1 → decode_unsigned W2 (encode_unsigned v) = some v)
    ∧ ∀ v : Int, -(2 ^ (W1 - 1)) ≤ v → v < 2 ^ (W1 - 1) →
        W2 ≤ 32 ∨ -(2 ^ 27) ≤ v ∨ v < -(2 ^ 62) →
        decode_signed W2 (encode_signed v) = some v := by
  intro W1 W2 h1 h2 hle
  have hpowN : (2 : Nat) ^ W1 ≤ 2 ^ W2 := Nat.pow_le_pow_right (by norm_num) hle
  have hpowI : (2 : Int) ^ (W1 - 1) ≤ 2 ^ (W2 - 1) :=
    pow_le_pow_right₀ (by norm_num) (by omega)
  exact ⟨fun v hv => roundtrip_unsigned (by omega),
    fun v ha hb hc =>
      roundtrip_signed_cases (by omega) (by omega) (by omega) (by omega) hc⟩

/-- Counterexample to C10 as stated: -2^31 is a 32-bit signed value and 64 a
wider native width, yet `expect_i64` on `encode(-2^31)` fails on the
src/lib.rs:121 `i32` shift overflow instead of returning -2^31
sign-extended. -/
theorem claim_C10_counterexample :
    encode_signed (-(2 ^ 31)) = [0x80, 0x80, 0x80, 0x80, 0x78]
    ∧ decode_signed 64 (encode_signed (-(2 ^ 31))) = none
    ∧ -(2 ^ (32 - 1)) ≤ -((2 : Int) ^ 31) ∧ (32 : Nat) ≤ 64 := by
  refine ⟨encode_signed_neg31, ?_, by norm_num, by norm_num⟩
  rw [encode_signed_neg31]
  decide

/-- Witness for C10: `expect_i64` of `encode(-2i8)` and `expect_u32` of
`encode(255u8)`. -/
theorem claim_C10_witness :
    decode_signed 64 (encode_signed (-2)) = some (-2)
    ∧ decode_unsigned 32 (encode_unsigned 255) = some 255 := by
  have h1 := claim_C10 8 64 (Or.inl rfl) (by norm_num) (by norm_num)
  have h2 := claim_C10 8 32 (Or.inl rfl) (by norm_num) (by norm_num)
  exact ⟨h1.2 (-2) (by norm_num) (by norm_num) (Or.inr (Or.inl (by norm_num))),
    h2.1 255 (by norm_num)⟩

end Leb128
